import Mathlib

/-!
# Verification of the PyRichHeader Rich-Header parser

Shallow embedding of `src/richheader/richheader.py` (class `RichHeader`) and
proofs about it.  Byte buffers are modelled as `List Nat` (each element a byte
value `< 256`; theorems that need this bound carry it as a hypothesis).
Python arbitrary-precision non-negative integers are modelled as `Nat`; the
`& 0xffffffff` truncations of the source are written `% 4294967296`.
File reads follow the semantics of reading an already-opened binary file:
`f.read(n)` at position `p` yields bytes `[p, p+n)` clamped to the file length
(the empty string when `p` is at or past the end, which is the case the
empty-data check of `_get_file_header` detects).
Unpacking with format `<L` demands exactly 4 bytes and otherwise raises
`struct.error`, modelled by the `structError` outcome.
-/

set_option autoImplicit false
set_option maxRecDepth 100000

namespace PyRichHeader

/-- Python slice `l[a:b]` for `0 ≤ a ≤ b`: elements at indices `a, …, b-1`,
clamped to the length of `l`. -/
def pySlice (l : List Nat) (a b : Nat) : List Nat := (l.take b).drop a

/-- The bytes of `struct.pack` with format `<L` on `v`: 4 little-endian bytes. -/
def packLE4 (v : Nat) : List Nat :=
  [v % 256, v / 256 % 256, v / 65536 % 256, v / 16777216 % 256]

/-- The value of `struct.unpack` with format `<L` on `bs`, taken at index 0.
A `struct.error` (modelled as `none`) unless `bs` has exactly 4 bytes. -/
def unpackLE4 (bs : List Nat) : Option Nat :=
  match bs with
  | [b0, b1, b2, b3] => some (b0 + 256 * b1 + 65536 * b2 + 16777216 * b3)
  | _ => none

/-- Total little-endian 32-bit read at offset `i` (missing bytes read as 0);
used only on the specification side, where reads are known in bounds. -/
def leU32 (l : List Nat) (i : Nat) : Nat :=
  l.getD i 0 + 256 * l.getD (i + 1) 0 + 65536 * l.getD (i + 2) 0 +
    16777216 * l.getD (i + 3) 0

/-- Helper for `findSub`: first index `≥ i` (counting from the original start)
at which `pat` occurs. -/
def findSubAux (pat : List Nat) : List Nat → Nat → Option Nat
  | [], i => if pat = [] then some i else none
  | b :: rest, i =>
    if pat.isPrefixOf (b :: rest) then some i else findSubAux pat rest (i + 1)

/-- Python `bytes.find(pat)`: offset of the first occurrence of the byte
string `pat` in `h` (`none` where Python returns `-1`). -/
def findSub (h pat : List Nat) : Option Nat := findSubAux pat h 0

/-- Python dict assignment `d[k] = v` on an association list with unique keys
(insertion order preserved; an existing key keeps its position and gets the
new value; a new key is appended at the end). -/
def dictInsert : List (Nat × Nat) → Nat → Nat → List (Nat × Nat)
  | [], k, v => [(k, v)]
  | kv :: rest, k, v =>
    if kv.1 = k then (k, v) :: rest else kv :: dictInsert rest k v

/-- Python dict lookup `d.get(k)` on the association-list model. -/
def dictLookup (d : List (Nat × Nat)) (k : Nat) : Option Nat :=
  match d with
  | [] => none
  | kv :: rest => if kv.1 = k then some kv.2 else dictLookup rest k

/-- The index sequence of Python `range(start, stop, 8)`. -/
def strideIndices (start stop : Nat) : List Nat :=
  (List.range ((stop - start + 7) / 8)).map (fun j => start + 8 * j)

/-- The constant `0x536e6144` (`self.checksum_mask`). -/
def checksumMask : Nat := 0x536e6144

/-- The byte string Rich (`self.rich_text`). -/
def richText : List Nat := [0x52, 0x69, 0x63, 0x68]

/-- One term of the byte loop of `_validate_checksum`:
`(temp << (i % 32)) | (temp >> (32 - (i % 32))) & 0xff`, with the Python
operator precedence (`&` binds tighter than `|`). -/
def byteTerm (i temp : Nat) : Nat :=
  (temp <<< (i % 32)) ||| ((temp >>> (32 - i % 32)) &&& 0xff)

/-- One term of the compid loop of `_validate_checksum`:
`k << v % 32 | k >> (32 - (v % 32))`. -/
def compidTerm (k v : Nat) : Nat :=
  (k <<< (v % 32)) ||| (k >>> (32 - v % 32))

/-- The byte loop of `_validate_checksum`: for `i` in
`range(0, rich_header_start)`, skipping the `e_lfanew` field bytes
`0x3c ≤ i ≤ 0x3f`, add `byteTerm` and truncate to 32 bits; the accumulator is
seeded with `rich_header_start` by the caller. -/
def checksumByteLoop (header : List Nat) (rich_header_start : Nat) : Nat :=
  (List.range rich_header_start).foldl
    (fun acc i =>
      if 0x3c ≤ i ∧ i ≤ 0x3c + 4 - 1 then acc
      else (acc + byteTerm i (header.getD i 0)) % 4294967296)
    rich_header_start

/-- The compid loop of `_validate_checksum`: for each `(k, v)` in
`self.compids.items()`, add `compidTerm k v` and truncate to 32 bits. -/
def checksumCompidLoop (compids : List (Nat × Nat)) (acc0 : Nat) : Nat :=
  compids.foldl (fun acc kv => (acc + compidTerm kv.1 kv.2) % 4294967296) acc0

/-- The final value of `self.checksum` computed by `_validate_checksum`. -/
def computeChecksum (header : List Nat) (compids : List (Nat × Nat))
    (rich_header_start : Nat) : Nat :=
  checksumCompidLoop compids (checksumByteLoop header rich_header_start)

/-- Return value of `RichHeader._validate_checksum`. -/
def validateChecksum (header : List Nat) (compids : List (Nat × Nat))
    (rich_header_start checksum : Nat) : Bool :=
  computeChecksum header compids rich_header_start == checksum

/-- Error outcomes of a parse: `RichHeaderNotPE`, `RichHeaderNotFound`, or a
raw `struct.error` escaping from `struct.unpack`. -/
inductive RichErr where
  | notPE
  | notFound
  | structError
  deriving Repr, DecidableEq

/-- Result of a successful `_parse`, together with the intermediate offsets
the method computes (`self.compids`, the checksum read after the Rich tag,
`self.checksum` as recomputed, `self.valid_checksum`, `compid_end_index`,
`rich_header_start`, `compid_start_index`). -/
structure ParseResult where
  compids : List (Nat × Nat)
  storedChecksum : Nat
  computedChecksum : Nat
  validChecksum : Bool
  richTagOffset : Nat
  blockStart : Nat
  entryRegionStart : Nat
  deriving Repr, DecidableEq

instance {ε α : Type} [DecidableEq ε] [DecidableEq α] :
    DecidableEq (Except ε α) := fun a b =>
  match a, b with
  | Except.error e1, Except.error e2 =>
    if h : e1 = e2 then isTrue (by rw [h]) else
      isFalse (fun hc => h (by injection hc))
  | Except.error _, Except.ok _ => isFalse (fun hc => by injection hc)
  | Except.ok _, Except.error _ => isFalse (fun hc => by injection hc)
  | Except.ok a1, Except.ok a2 =>
    if h : a1 = a2 then isTrue (by rw [h]) else
      isFalse (fun hc => h (by injection hc))

/-- The decode loop of `_parse`: for each `i` of `range(start, stop, 8)`,
`compid = unpack(header[i:i+4]) ^ cv`, `count = unpack(header[i+4:i+8]) ^ cv`,
`self.compids[compid] = count`. -/
def decodeLoop (header : List Nat) (cv : Nat) :
    List Nat → List (Nat × Nat) → Except RichErr (List (Nat × Nat))
  | [], d => Except.ok d
  | i :: rest, d =>
    match unpackLE4 (pySlice header i (i + 4)),
          unpackLE4 (pySlice header (i + 4) (i + 8)) with
    | some c, some n => decodeLoop header cv rest (dictInsert d (c ^^^ cv) (n ^^^ cv))
    | _, _ => Except.error RichErr.structError

/-- `RichHeader._get_file_header`: seek to `0x3c`, read 4 bytes, bail with
`RichHeaderNotPE` when the read comes back empty, unpack them as `<L`, and
return the first that-many bytes of the file. -/
def getFileHeader (file : List Nat) : Except RichErr (List Nat) :=
  let data := pySlice file 0x3c (0x3c + 4)
  if data = [] then Except.error RichErr.notPE
  else
    match unpackLE4 data with
    | none => Except.error RichErr.structError
    | some e => Except.ok (file.take e)

/-- Body of `RichHeader._parse` after the `_get_file_header` call, operating
on the header region `self.header`. -/
def parseHeader (header : List Nat) : Except RichErr ParseResult :=
  match findSub header richText with
  | none => Except.error RichErr.notFound
  | some compid_end_index =>
    let rich_offset := compid_end_index + 4
    match unpackLE4 (pySlice header rich_offset (rich_offset + 4)) with
    | none => Except.error RichErr.structError
    | some checksum_value =>
      let start_marker := (checksum_value ^^^ checksumMask) % 256
      match findSub header [start_marker] with
      | none => Except.error RichErr.notFound
      | some rich_header_start =>
        let compid_start_index := rich_header_start + 16
        match decodeLoop header checksum_value
            (strideIndices compid_start_index compid_end_index) [] with
        | Except.error e => Except.error e
        | Except.ok compids =>
          Except.ok
            { compids := compids
              storedChecksum := checksum_value
              computedChecksum := computeChecksum header compids rich_header_start
              validChecksum :=
                validateChecksum header compids rich_header_start checksum_value
              richTagOffset := compid_end_index
              blockStart := rich_header_start
              entryRegionStart := compid_start_index }

/-- `RichHeader._parse` on the raw file bytes. -/
def parseFile (file : List Nat) : Except RichErr ParseResult :=
  match getFileHeader file with
  | Except.error e => Except.error e
  | Except.ok header => parseHeader header

/-- The header region `self.header` a parse of `file` works on (`[]` when the
slicer fails). -/
def headerOf (file : List Nat) : List Nat :=
  match getFileHeader file with
  | Except.error _ => []
  | Except.ok header => header

/-! ## Specification-side definitions

These follow the wording of the specification, for comparison with the
embedded source. -/

/-- Rotation as the specification words it: compute
`((b << (k % 32)) | (b >> (32 - (k % 32)))) mod 2^32`, rotating `b` left by
`k % 32` bit positions within a 32-bit field. -/
def specRot (b k : Nat) : Nat :=
  ((b <<< (k % 32)) ||| (b >>> (32 - k % 32))) % 4294967296

/-- Checksum as the specification describes it: seed with `blockStart`, add
the rotated header bytes (skipping offsets `[0x3c, 0x40)`), then the rotated
entries, truncating the running sum to 32 bits after every addition. -/
def specChecksum (header : List Nat) (blockStart : Nat)
    (entries : List (Nat × Nat)) : Nat :=
  entries.foldl (fun acc kv => (acc + specRot kv.1 kv.2) % 4294967296)
    ((List.range blockStart).foldl
      (fun acc i =>
        if 0x3c ≤ i ∧ i ≤ 0x3c + 4 - 1 then acc
        else (acc + specRot (header.getD i 0) i) % 4294967296)
      blockStart)

/-- The raw (identifierCode, occurrenceCount) pairs of the entry region, in
stride order: the little-endian u32 at `[i, i+4)` XOR `cv` paired with the
little-endian u32 at `[i+4, i+8)` XOR `cv`. -/
def rawPairs (header : List Nat) (cv start stop : Nat) : List (Nat × Nat) :=
  (strideIndices start stop).map
    (fun i => (leU32 header i ^^^ cv, leU32 header (i + 4) ^^^ cv))

/-- The dictionary obtained by inserting a sequence of pairs in order into an
empty table, later duplicates overriding earlier ones. -/
def dictOfPairs (pairs : List (Nat × Nat)) : List (Nat × Nat) :=
  pairs.foldl (fun d p => dictInsert d p.1 p.2) []

/-- The count of the last pair of `pairs` carrying key `k`, if any. -/
def lastVal (pairs : List (Nat × Nat)) (k : Nat) : Option Nat :=
  pairs.foldl (fun acc p => if p.1 = k then some p.2 else acc) none

/-- The byte loop of the checksum run over an explicit list of
(offset, byte) pairs, so that reorderings of the loop can be expressed. -/
def byteLoopOn (s : Nat) (ibs : List (Nat × Nat)) : Nat :=
  ibs.foldl
    (fun acc ib =>
      if 0x3c ≤ ib.1 ∧ ib.1 ≤ 0x3c + 4 - 1 then acc
      else (acc + byteTerm ib.1 ib.2) % 4294967296)
    s

/-- The (offset, byte) pairs the byte loop of `_validate_checksum` visits. -/
def headerEnum (header : List Nat) (n : Nat) : List (Nat × Nat) :=
  (List.range n).map (fun i => (i, header.getD i 0))

/-- The XOR-encoded entry bytes of a synthetic Rich block. -/
def encPairs (C : Nat) (pairs : List (Nat × Nat)) : List Nat :=
  (pairs.map (fun p => packLE4 (p.1 ^^^ C) ++ packLE4 (p.2 ^^^ C))).flatten

/-- A synthetic buffer per the round-trip construction of the specification:
the 16-byte marker block, `N` XOR-encoded pairs, the Rich tag, and the
checksum `C` in little-endian. -/
def buildBuffer (C : Nat) (pairs : List (Nat × Nat)) : List Nat :=
  packLE4 (C ^^^ checksumMask) ++ packLE4 C ++ packLE4 C ++ packLE4 C ++
    encPairs C pairs ++ richText ++ packLE4 C

/-! ## Concrete buffers used by witnesses and counterexamples -/

/-- A well-formed 128-byte PE prefix: `e_lfanew = 0x80`, marker block (with
checksum 0) at `0x40`, one entry (compid `0x00010001`, count 5) at `0x50`,
the Rich tag at `0x58` and the stored checksum 0 at `0x5c`. -/
def F1 : List Nat :=
  List.replicate 60 0 ++ [0x80, 0, 0, 0] ++ [0x44, 0x61, 0x6e, 0x53] ++
    List.replicate 12 0 ++ [1, 0, 1, 0, 5, 0, 0, 0] ++
    [0x52, 0x69, 0x63, 0x68] ++ [0, 0, 0, 0] ++ List.replicate 32 0

/-- The parse result of `F1`. -/
def F1Result : ParseResult :=
  { compids := [(65537, 5)]
    storedChecksum := 0
    computedChecksum := 2097248
    validChecksum := false
    richTagOffset := 88
    blockStart := 64
    entryRegionStart := 80 }

/-- Like `F1` but with a 9-byte entry region: one whole 8-byte stride plus a
single trailing byte before the Rich tag at `0x59`. -/
def F2 : List Nat :=
  List.replicate 60 0 ++ [0x80, 0, 0, 0] ++ [0x44, 0x61, 0x6e, 0x53] ++
    List.replicate 12 0 ++ [1, 0, 1, 0, 5, 0, 0, 0] ++ [0] ++
    [0x52, 0x69, 0x63, 0x68] ++ [0, 0, 0, 0] ++ List.replicate 31 0

/-- The parse result of `F2`: the trailing partial stride is NOT dropped; a
second pair is decoded from bytes that overlap the Rich tag itself. -/
def F2Result : ParseResult :=
  { compids := [(65537, 5), (1667846656, 104)]
    storedChecksum := 0
    computedChecksum := 1769078979
    validChecksum := false
    richTagOffset := 89
    blockStart := 64
    entryRegionStart := 80 }

/-! ## Lemmas about slices, packing and strides -/

theorem pySlice_eq_drop_take (l : List Nat) (a b : Nat) :
    pySlice l a b = (l.drop a).take (b - a) := by
  simp [pySlice, List.drop_take]

theorem pySlice_length (l : List Nat) (a b : Nat) :
    (pySlice l a b).length = min b l.length - a := by
  simp [pySlice]

theorem unpackLE4_eq_none : ∀ (bs : List Nat), bs.length ≠ 4 → unpackLE4 bs = none
  | [], _ => rfl
  | [_], _ => rfl
  | [_, _], _ => rfl
  | [_, _, _], _ => rfl
  | [_, _, _, _], h => absurd rfl h
  | _ :: _ :: _ :: _ :: _ :: _, _ => rfl

theorem unpackLE4_length (bs : List Nat) (v : Nat) (h : unpackLE4 bs = some v) :
    bs.length = 4 := by
  by_contra hne
  rw [unpackLE4_eq_none bs hne] at h
  cases h

theorem drop_take4 (l : List Nat) (i : Nat) (h : i + 4 ≤ l.length) :
    (l.drop i).take 4 =
      [l.getD i 0, l.getD (i + 1) 0, l.getD (i + 2) 0, l.getD (i + 3) 0] := by
  induction i generalizing l with
  | zero =>
    rcases l with _ | ⟨a, _ | ⟨b, _ | ⟨c, _ | ⟨d, t⟩⟩⟩⟩ <;> simp_all
  | succ i ih =>
    rcases l with _ | ⟨a, t⟩
    · simp at h
    · simpa using ih t (by simpa using h)

theorem unpack_pySlice (h : List Nat) (i : Nat) (hb : i + 4 ≤ h.length) :
    unpackLE4 (pySlice h i (i + 4)) = some (leU32 h i) := by
  rw [pySlice_eq_drop_take]
  have h4 : i + 4 - i = 4 := by omega
  rw [h4, drop_take4 h i hb]
  rfl

theorem unpack_pySlice_bound (h : List Nat) (i v : Nat)
    (hu : unpackLE4 (pySlice h i (i + 4)) = some v) : i + 4 ≤ h.length := by
  have hlen := unpackLE4_length _ _ hu
  rw [pySlice_length] at hlen
  omega

theorem unpack_pySlice_inv (h : List Nat) (i v : Nat)
    (hu : unpackLE4 (pySlice h i (i + 4)) = some v) : v = leU32 h i := by
  have hb := unpack_pySlice_bound h i v hu
  rw [unpack_pySlice h i hb] at hu
  exact (Option.some.inj hu).symm

theorem packLE4_length (v : Nat) : (packLE4 v).length = 4 := rfl

theorem unpack_pack (v : Nat) (h : v < 4294967296) :
    unpackLE4 (packLE4 v) = some v := by
  simp only [packLE4, unpackLE4, Option.some.injEq]
  omega

theorem strideIndices_length (a b : Nat) :
    (strideIndices a b).length = (b - a + 7) / 8 := by
  simp [strideIndices]

theorem strideIndices_nil (a b : Nat) (h : b ≤ a) : strideIndices a b = [] := by
  have h0 : b - a = 0 := by omega
  simp [strideIndices, h0]

theorem mem_strideIndices (a b i : Nat) (h : i ∈ strideIndices a b) :
    a ≤ i ∧ i < b := by
  simp only [strideIndices, List.mem_map, List.mem_range] at h
  obtain ⟨k, hk, rfl⟩ := h
  omega

theorem strideIndices_cons (a n : Nat) :
    strideIndices a (a + 8 * (n + 1)) =
      a :: strideIndices (a + 8) (a + 8 * (n + 1)) := by
  unfold strideIndices
  have h1 : (a + 8 * (n + 1) - a + 7) / 8 = n + 1 := by omega
  have h2 : (a + 8 * (n + 1) - (a + 8) + 7) / 8 = n := by omega
  rw [h1, h2, List.range_succ_eq_map]
  simp only [List.map_cons, List.map_map, Nat.mul_zero, Nat.add_zero]
  refine congrArg _ ?_
  refine List.map_congr_left fun j _ => ?_
  simp only [Function.comp_apply]
  omega

theorem checksumByteLoop_eq_byteLoopOn (header : List Nat) (n : Nat) :
    checksumByteLoop header n = byteLoopOn n (headerEnum header n) := by
  simp [checksumByteLoop, byteLoopOn, headerEnum, List.foldl_map]

/-! ## Lemmas about the dictionary model -/

theorem dictInsert_keys (d : List (Nat × Nat)) (k v : Nat) :
    (dictInsert d k v).map Prod.fst =
      if k ∈ d.map Prod.fst then d.map Prod.fst
      else d.map Prod.fst ++ [k] := by
  induction d with
  | nil => simp [dictInsert]
  | cons kv rest ih =>
    by_cases hk : kv.1 = k
    · simp [dictInsert, hk]
    · by_cases hm : k ∈ rest.map Prod.fst <;>
        simp [dictInsert, hk, ih, hm, Ne.symm hk]

theorem dictInsert_nodup (d : List (Nat × Nat)) (k v : Nat)
    (h : (d.map Prod.fst).Nodup) : ((dictInsert d k v).map Prod.fst).Nodup := by
  rw [dictInsert_keys]
  by_cases hm : k ∈ d.map Prod.fst
  · simpa [hm] using h
  · rw [if_neg hm]
    refine List.Nodup.append h (List.nodup_singleton k) ?_
    intro a ha hb
    rw [List.mem_singleton] at hb
    exact hm (hb ▸ ha)

theorem dictLookup_insert (d : List (Nat × Nat)) (k v k' : Nat) :
    dictLookup (dictInsert d k v) k' =
      if k' = k then some v else dictLookup d k' := by
  induction d with
  | nil =>
    by_cases h : k' = k
    · subst h; simp [dictInsert, dictLookup]
    · have h' : ¬(k = k') := fun hh => h hh.symm
      simp [dictInsert, dictLookup, h, h']
  | cons kv rest ih =>
    by_cases h1 : kv.1 = k
    · subst h1
      by_cases h2 : k' = kv.1
      · subst h2; simp [dictInsert, dictLookup]
      · have h2' : ¬(kv.1 = k') := fun hh => h2 hh.symm
        simp [dictInsert, dictLookup, h2, h2']
    · by_cases h2 : kv.1 = k' <;>
        by_cases h3 : k' = k <;>
          simp_all [dictInsert, dictLookup]

theorem dictLookup_foldl (pairs : List (Nat × Nat)) (d0 : List (Nat × Nat))
    (k : Nat) :
    dictLookup (pairs.foldl (fun d p => dictInsert d p.1 p.2) d0) k =
      pairs.foldl (fun acc p => if p.1 = k then some p.2 else acc)
        (dictLookup d0 k) := by
  induction pairs generalizing d0 with
  | nil => rfl
  | cons p rest ih =>
    simp only [List.foldl_cons]
    rw [ih, dictLookup_insert]
    congr 1
    by_cases h : p.1 = k
    · simp [h]
    · have h' : ¬(k = p.1) := fun hh => h hh.symm
      simp [h, h']

theorem dictFoldl_nodup (pairs : List (Nat × Nat)) (d0 : List (Nat × Nat))
    (h : (d0.map Prod.fst).Nodup) :
    (((pairs.foldl (fun d p => dictInsert d p.1 p.2) d0)).map Prod.fst).Nodup := by
  induction pairs generalizing d0 with
  | nil => exact h
  | cons p rest ih => exact ih _ (dictInsert_nodup _ _ _ h)

theorem dictInsert_length (d : List (Nat × Nat)) (k v : Nat) :
    (dictInsert d k v).length ≤ d.length + 1 := by
  induction d with
  | nil => simp [dictInsert]
  | cons kv rest ih =>
    by_cases hk : kv.1 = k <;> simp [dictInsert, hk]
    omega

theorem dictFoldl_length (pairs : List (Nat × Nat)) (d0 : List (Nat × Nat)) :
    (pairs.foldl (fun d p => dictInsert d p.1 p.2) d0).length ≤
      d0.length + pairs.length := by
  induction pairs generalizing d0 with
  | nil => simp
  | cons p rest ih =>
    have h1 := ih (dictInsert d0 p.1 p.2)
    have h2 := dictInsert_length d0 p.1 p.2
    simp only [List.foldl_cons, List.length_cons]
    omega

/-! ## Lemmas about the decode loop -/

theorem decodeLoop_eq_foldl (header : List Nat) (cv : Nat) (idxs : List Nat)
    (d : List (Nat × Nat)) (hb : ∀ i ∈ idxs, i + 8 ≤ header.length) :
    decodeLoop header cv idxs d =
      Except.ok (idxs.foldl
        (fun d i =>
          dictInsert d (leU32 header i ^^^ cv) (leU32 header (i + 4) ^^^ cv))
        d) := by
  induction idxs generalizing d with
  | nil => rfl
  | cons i rest ih =>
    have h8 := hb i (List.mem_cons_self _ _)
    have h1 : i + 4 ≤ header.length := by omega
    have h2 : i + 4 + 4 ≤ header.length := by omega
    have hu2 : unpackLE4 (pySlice header (i + 4) (i + 8)) =
        some (leU32 header (i + 4)) := by
      have := unpack_pySlice header (i + 4) h2
      rwa [show i + 4 + 4 = i + 8 by omega] at this
    simp only [decodeLoop, List.foldl_cons, unpack_pySlice header i h1, hu2]
    exact ih _ (fun j hj => hb j (List.mem_cons_of_mem _ hj))

theorem foldl_strideIndices_eq_dictOfPairs (header : List Nat)
    (cv start stop : Nat) :
    (strideIndices start stop).foldl
      (fun d i =>
        dictInsert d (leU32 header i ^^^ cv) (leU32 header (i + 4) ^^^ cv))
      [] = dictOfPairs (rawPairs header cv start stop) := by
  simp [dictOfPairs, rawPairs, List.foldl_map]

/-! ## Lemmas about the checksum computation -/

theorem getD_lt (header : List Nat) (i : Nat) (hb : ∀ b ∈ header, b < 256) :
    header.getD i 0 < 256 := by
  by_cases hi : i < header.length
  · rw [List.getD_eq_getElem header 0 hi]
    exact hb _ (List.getElem_mem hi)
  · rw [List.getD_eq_default header 0 (by omega)]
    norm_num

theorem byteTerm_eq (i t : Nat) (ht : t < 256) :
    byteTerm i t = (t <<< (i % 32)) ||| (t >>> (32 - i % 32)) := by
  have hsh : t >>> (32 - i % 32) ≤ t := by
    rw [Nat.shiftRight_eq_div_pow]
    exact Nat.div_le_self _ _
  have h255 : (t >>> (32 - i % 32)) &&& 255 = t >>> (32 - i % 32) := by
    have hmod := Nat.and_pow_two_sub_one_eq_mod (t >>> (32 - i % 32)) 8
    norm_num at hmod
    rw [hmod, Nat.mod_eq_of_lt (by omega)]
  unfold byteTerm
  rw [h255]

theorem computeChecksum_eq_spec (header : List Nat)
    (compids : List (Nat × Nat)) (bs : Nat) (hb : ∀ b ∈ header, b < 256) :
    computeChecksum header compids bs = specChecksum header bs compids := by
  unfold computeChecksum specChecksum checksumCompidLoop checksumByteLoop
  have hbyte :
      (List.range bs).foldl
        (fun acc i =>
          if 0x3c ≤ i ∧ i ≤ 0x3c + 4 - 1 then acc
          else (acc + byteTerm i (header.getD i 0)) % 4294967296) bs =
      (List.range bs).foldl
        (fun acc i =>
          if 0x3c ≤ i ∧ i ≤ 0x3c + 4 - 1 then acc
          else (acc + specRot (header.getD i 0) i) % 4294967296) bs := by
    apply List.foldl_ext
    intro acc i _
    by_cases hg : 0x3c ≤ i ∧ i ≤ 0x3c + 4 - 1
    · simp [hg]
    · simp only [if_neg hg]
      rw [byteTerm_eq i _ (getD_lt header i hb)]
      unfold specRot
      omega
  rw [hbyte]
  apply List.foldl_ext
  intro acc kv _
  unfold compidTerm specRot
  omega

/-! ## Permutation invariance of the two checksum loops -/

theorem byteLoopOn_perm (s : Nat) (l₁ l₂ : List (Nat × Nat))
    (hp : l₁.Perm l₂) : byteLoopOn s l₁ = byteLoopOn s l₂ := by
  induction hp generalizing s with
  | nil => rfl
  | cons x _ ih =>
    simp only [byteLoopOn, List.foldl_cons]
    exact ih _
  | swap x y l =>
    simp only [byteLoopOn, List.foldl_cons]
    congr 1
    by_cases g1 : 0x3c ≤ x.1 ∧ x.1 ≤ 0x3c + 4 - 1 <;>
      by_cases g2 : 0x3c ≤ y.1 ∧ y.1 ≤ 0x3c + 4 - 1 <;>
        simp [g1, g2]
    omega
  | trans _ _ ih1 ih2 => exact (ih1 s).trans (ih2 s)

theorem checksumCompidLoop_perm (acc : Nat) (l₁ l₂ : List (Nat × Nat))
    (hp : l₁.Perm l₂) :
    checksumCompidLoop l₁ acc = checksumCompidLoop l₂ acc := by
  induction hp generalizing acc with
  | nil => rfl
  | cons x _ ih =>
    simp only [checksumCompidLoop, List.foldl_cons]
    exact ih _
  | swap x y l =>
    simp only [checksumCompidLoop, List.foldl_cons]
    congr 1
    omega
  | trans _ _ ih1 ih2 => exact (ih1 acc).trans (ih2 acc)

/-! ## Inversion of a successful header parse -/

theorem parseHeader_ok_inv (h : List Nat) (r : ParseResult)
    (hp : parseHeader h = Except.ok r) :
    findSub h richText = some r.richTagOffset ∧
    unpackLE4 (pySlice h (r.richTagOffset + 4) (r.richTagOffset + 4 + 4)) =
      some r.storedChecksum ∧
    findSub h [(r.storedChecksum ^^^ checksumMask) % 256] = some r.blockStart ∧
    r.entryRegionStart = r.blockStart + 16 ∧
    decodeLoop h r.storedChecksum
        (strideIndices r.entryRegionStart r.richTagOffset) [] =
      Except.ok r.compids ∧
    r.computedChecksum = computeChecksum h r.compids r.blockStart ∧
    r.validChecksum =
      validateChecksum h r.compids r.blockStart r.storedChecksum := by
  unfold parseHeader at hp
  dsimp only [] at hp
  split at hp
  · cases hp
  next compid_end_index h1 =>
    split at hp
    · cases hp
    next checksum_value h2 =>
      split at hp
      · cases hp
      next rich_header_start h3 =>
        split at hp
        · cases hp
        next compids h4 =>
          injection hp with hr
          subst hr
          exact ⟨h1, h2, h3, rfl, h4, rfl, rfl⟩

/-! ## Parse-level helper lemmas -/

theorem parseFile_ok_inv (file : List Nat) (r : ParseResult)
    (hp : parseFile file = Except.ok r) :
    getFileHeader file = Except.ok (headerOf file) ∧
    parseHeader (headerOf file) = Except.ok r := by
  unfold parseFile at hp
  split at hp
  · cases hp
  next header hh =>
    unfold headerOf
    rw [hh]
    exact ⟨rfl, hp⟩

theorem getFileHeader_ok_take (file h : List Nat)
    (hh : getFileHeader file = Except.ok h) : ∃ e, h = file.take e := by
  unfold getFileHeader at hh
  dsimp only [] at hh
  split at hh
  · cases hh
  · split at hh
    · cases hh
    next e heq =>
      injection hh with h2
      exact ⟨e, h2.symm⟩

theorem headerOf_subset (file : List Nat) (b : Nat) (hb : b ∈ headerOf file) :
    b ∈ file := by
  unfold headerOf at hb
  split at hb
  · simp at hb
  next header hh =>
    obtain ⟨e, rfl⟩ := getFileHeader_ok_take file header hh
    exact List.take_subset e file hb

theorem strideIndices_bound (h : List Nat) (rto cv start : Nat)
    (h2 : unpackLE4 (pySlice h (rto + 4) (rto + 4 + 4)) = some cv) :
    ∀ i ∈ strideIndices start rto, i + 8 ≤ h.length := by
  intro i hi
  have hb := unpack_pySlice_bound h (rto + 4) cv h2
  have hm := mem_strideIndices start rto i hi
  omega

theorem decodeLoop_error (header : List Nat) (cv : Nat) (idxs : List Nat)
    (d : List (Nat × Nat)) (e : RichErr)
    (h : decodeLoop header cv idxs d = Except.error e) :
    e = RichErr.structError := by
  induction idxs generalizing d with
  | nil => cases h
  | cons i rest ih =>
    unfold decodeLoop at h
    split at h
    · exact ih _ h
    · injection h with h
      exact h.symm

theorem parse_ok_compids (h : List Nat) (r : ParseResult)
    (hp : parseHeader h = Except.ok r) :
    r.compids = dictOfPairs
      (rawPairs h r.storedChecksum r.entryRegionStart r.richTagOffset) := by
  obtain ⟨h1, h2, h3, h4, h5, h6, h7⟩ := parseHeader_ok_inv h r hp
  have hb := strideIndices_bound h r.richTagOffset r.storedChecksum
    r.entryRegionStart h2
  rw [decodeLoop_eq_foldl h r.storedChecksum _ [] hb] at h5
  injection h5 with h5
  rw [← h5, foldl_strideIndices_eq_dictOfPairs]

/-! ## Claim theorems -/

/-- C1: for every successful parse of a byte buffer, the computed checksum
equals, modulo 2^32, the seed `blockStart`, plus each header byte at offset
`i < blockStart` (excluding offsets `[0x3c, 0x40)`) rotated left by `i mod 32`
bit positions within a 32-bit field, plus each entry identifier rotated left
by its count mod 32, with the running sum truncated to 32 bits after every
addition. -/
theorem checksum_matches_spec (file : List Nat) (r : ParseResult)
    (hbytes : ∀ b ∈ file, b < 256) (hp : parseFile file = Except.ok r) :
    r.computedChecksum = specChecksum (headerOf file) r.blockStart r.compids := by
  obtain ⟨hget, hph⟩ := parseFile_ok_inv file r hp
  obtain ⟨_, _, _, _, _, h6, _⟩ := parseHeader_ok_inv _ r hph
  rw [h6]
  exact computeChecksum_eq_spec _ _ _
    (fun b hbmem => hbytes b (headerOf_subset file b hbmem))

/-- Witness for C1, at the concrete 128-byte file `F1`. -/
theorem checksum_matches_spec_witness :
    F1Result.computedChecksum =
      specChecksum (headerOf F1) F1Result.blockStart F1Result.compids :=
  checksum_matches_spec F1 F1Result (by decide) (by decide)

/-- C9: parsing is deterministic: two successful parses of the same buffer
agree on the entry table (contents and order), the stored and computed
checksums, and the validity boolean. -/
theorem parse_deterministic (file : List Nat) (r₁ r₂ : ParseResult)
    (h₁ : parseFile file = Except.ok r₁) (h₂ : parseFile file = Except.ok r₂) :
    r₁.compids = r₂.compids ∧ r₁.storedChecksum = r₂.storedChecksum ∧
      r₁.computedChecksum = r₂.computedChecksum ∧
      r₁.validChecksum = r₂.validChecksum := by
  rw [h₁] at h₂
  injection h₂ with h
  subst h
  exact ⟨rfl, rfl, rfl, rfl⟩

/-- Witness for C9, at the concrete file `F1`. -/
theorem parse_deterministic_witness :
    F1Result.compids = F1Result.compids ∧
      F1Result.storedChecksum = F1Result.storedChecksum ∧
      F1Result.computedChecksum = F1Result.computedChecksum ∧
      F1Result.validChecksum = F1Result.validChecksum :=
  parse_deterministic F1 F1Result F1Result (by decide) (by decide)

/-- C6: the checksum validator cannot fail: once the locator has succeeded
(the Rich tag is found, the stored checksum is readable, and the start byte
is found), the parse always produces a `ParseResult`, and its validity flag
is exactly the boolean `computedChecksum == storedChecksum` — a mismatch is
an ordinary successful outcome, not an error. -/
theorem validator_total (h : List Nat) (rto cv bs : Nat)
    (h1 : findSub h richText = some rto)
    (h2 : unpackLE4 (pySlice h (rto + 4) (rto + 4 + 4)) = some cv)
    (h3 : findSub h [(cv ^^^ checksumMask) % 256] = some bs) :
    ∃ r, parseHeader h = Except.ok r ∧
      r.validChecksum = (r.computedChecksum == r.storedChecksum) := by
  have hb := strideIndices_bound h rto cv (bs + 16) h2
  have hdec := decodeLoop_eq_foldl h cv (strideIndices (bs + 16) rto) [] hb
  refine ⟨⟨List.foldl
      (fun d i => dictInsert d (leU32 h i ^^^ cv) (leU32 h (i + 4) ^^^ cv)) []
      (strideIndices (bs + 16) rto), cv,
    computeChecksum h (List.foldl
      (fun d i => dictInsert d (leU32 h i ^^^ cv) (leU32 h (i + 4) ^^^ cv)) []
      (strideIndices (bs + 16) rto)) bs,
    validateChecksum h (List.foldl
      (fun d i => dictInsert d (leU32 h i ^^^ cv) (leU32 h (i + 4) ^^^ cv)) []
      (strideIndices (bs + 16) rto)) bs cv,
    rto, bs, bs + 16⟩, ?_, rfl⟩
  simp only [parseHeader, h1, h2, h3, hdec]

/-- Witness for C6, at the concrete file `F1`. -/
theorem validator_total_witness :
    F1Result.validChecksum =
      (F1Result.computedChecksum == F1Result.storedChecksum) := by
  obtain ⟨r, hr, hv⟩ := validator_total F1 88 0 64 (by decide) (by decide)
    (by decide)
  have hF : parseHeader F1 = Except.ok F1Result := by decide
  rw [hF] at hr
  injection hr with hr
  rw [hr]
  exact hv

/-- C4: a header-region parse fails with `RichHeaderNotFound` exactly when
the Rich tag is absent, or when (the tag and the stored checksum being
readable) the single byte equal to the least-significant byte of
`storedChecksum XOR 0x536e6144` is absent; on success, `storedChecksum` is
the little-endian u32 immediately following the first Rich occurrence,
`blockStart` is the offset of the first occurrence of that byte, and the
entry region decoded runs from `blockStart + 16` up to (exclusive) the Rich
tag offset. -/
theorem locator_characterization (h : List Nat) :
    (parseHeader h = Except.error RichErr.notFound ↔
      findSub h richText = none ∨
        ∃ rto cv, findSub h richText = some rto ∧
          unpackLE4 (pySlice h (rto + 4) (rto + 4 + 4)) = some cv ∧
          findSub h [(cv ^^^ checksumMask) % 256] = none) ∧
    (∀ r, parseHeader h = Except.ok r →
      findSub h richText = some r.richTagOffset ∧
      unpackLE4 (pySlice h (r.richTagOffset + 4) (r.richTagOffset + 4 + 4)) =
        some r.storedChecksum ∧
      findSub h [(r.storedChecksum ^^^ checksumMask) % 256] =
        some r.blockStart ∧
      r.entryRegionStart = r.blockStart + 16 ∧
      decodeLoop h r.storedChecksum
          (strideIndices r.entryRegionStart r.richTagOffset) [] =
        Except.ok r.compids) := by
  constructor
  · constructor
    · intro he
      unfold parseHeader at he
      dsimp only [] at he
      split at he
      next h1 => exact Or.inl h1
      next rto h1 =>
        split at he
        next h2 => simp at he
        next cv h2 =>
          split at he
          next h3 => exact Or.inr ⟨rto, cv, h1, h2, h3⟩
          next bs h3 =>
            split at he
            next e h4 =>
              injection he with he
              have := decodeLoop_error h cv _ [] e h4
              rw [he] at this
              cases this
            next compids h4 => cases he
    · rintro (h1 | ⟨rto, cv, h1, h2, h3⟩)
      · simp [parseHeader, h1]
      · simp [parseHeader, h1, h2, h3]
  · intro r hr
    obtain ⟨h1, h2, h3, h4, h5, _, _⟩ := parseHeader_ok_inv h r hr
    exact ⟨h1, h2, h3, h4, h5⟩

/-- Witness for C4, at the concrete header region `F1`. -/
theorem locator_characterization_witness :
    findSub F1 richText = some F1Result.richTagOffset ∧
    unpackLE4 (pySlice F1 (F1Result.richTagOffset + 4)
        (F1Result.richTagOffset + 4 + 4)) = some F1Result.storedChecksum ∧
    findSub F1 [(F1Result.storedChecksum ^^^ checksumMask) % 256] =
      some F1Result.blockStart ∧
    F1Result.entryRegionStart = F1Result.blockStart + 16 ∧
    decodeLoop F1 F1Result.storedChecksum
        (strideIndices F1Result.entryRegionStart F1Result.richTagOffset) [] =
      Except.ok F1Result.compids :=
  (locator_characterization F1).2 F1Result (by decide)

/-- C7: for every successful parse, the entry table is the fold of
last-write-wins insertions of the raw pairs — the little-endian u32 at
`[i, i+4)` XOR `storedChecksum` mapped to the little-endian u32 at
`[i+4, i+8)` XOR `storedChecksum`, stride by stride — its keys are unique,
and each key ends up bound to the count of the last raw pair carrying it. -/
theorem decoder_pairs (file : List Nat) (r : ParseResult)
    (hp : parseFile file = Except.ok r) :
    r.compids = dictOfPairs (rawPairs (headerOf file) r.storedChecksum
      r.entryRegionStart r.richTagOffset) ∧
    (r.compids.map Prod.fst).Nodup ∧
    (∀ k, dictLookup r.compids k = lastVal (rawPairs (headerOf file)
      r.storedChecksum r.entryRegionStart r.richTagOffset) k) := by
  obtain ⟨hget, hph⟩ := parseFile_ok_inv file r hp
  have hc := parse_ok_compids _ r hph
  refine ⟨hc, ?_, ?_⟩
  · rw [hc]
    exact dictFoldl_nodup _ [] (by simp)
  · intro k
    rw [hc]
    simpa [dictOfPairs, lastVal, dictLookup] using
      dictLookup_foldl (rawPairs (headerOf file) r.storedChecksum
        r.entryRegionStart r.richTagOffset) [] k

/-- Witness for C7, at the concrete file `F1` and key `65537`. -/
theorem decoder_pairs_witness :
    F1Result.compids = dictOfPairs (rawPairs (headerOf F1)
      F1Result.storedChecksum F1Result.entryRegionStart
      F1Result.richTagOffset) ∧
    (F1Result.compids.map Prod.fst).Nodup ∧
    dictLookup F1Result.compids 65537 = lastVal (rawPairs (headerOf F1)
      F1Result.storedChecksum F1Result.entryRegionStart
      F1Result.richTagOffset) 65537 := by
  obtain ⟨a, b, c⟩ := decoder_pairs F1 F1Result (by decide)
  exact ⟨a, b, c 65537⟩

/-- C2 counterexample: on `F2` the entry region spans 9 bytes, yet the parse
decodes 2 pairs — the final partial stride is NOT dropped, so the entry count
is not `floor((entryRegionEnd - entryRegionStart) / 8) = 1`. -/
theorem stride_floor_counterexample :
    parseFile F2 = Except.ok F2Result ∧
    F2Result.compids.length ≠
      (F2Result.richTagOffset - F2Result.entryRegionStart) / 8 := by
  constructor
  · decide
  · decide

/-- C2 amended: the decoder walks the entry region in strides of 8 bytes but
does not drop a final partial stride: the number of raw decoded pairs is
`ceil((entryRegionEnd - entryRegionStart) / 8)`, the table size is at most
that, and every stride read stays within the header region (at most 7 bytes
past `entryRegionEnd`, which is always in bounds because the Rich tag and
stored checksum follow the region). -/
theorem stride_ceil (file : List Nat) (r : ParseResult)
    (hp : parseFile file = Except.ok r) :
    (rawPairs (headerOf file) r.storedChecksum r.entryRegionStart
        r.richTagOffset).length =
      (r.richTagOffset - r.entryRegionStart + 7) / 8 ∧
    r.compids.length ≤ (r.richTagOffset - r.entryRegionStart + 7) / 8 ∧
    (∀ i ∈ strideIndices r.entryRegionStart r.richTagOffset,
      i + 8 ≤ (headerOf file).length) := by
  obtain ⟨hget, hph⟩ := parseFile_ok_inv file r hp
  obtain ⟨h1, h2, h3, h4, h5, _, _⟩ := parseHeader_ok_inv _ r hph
  have hbnd := strideIndices_bound (headerOf file) r.richTagOffset
    r.storedChecksum r.entryRegionStart h2
  have hplen : (rawPairs (headerOf file) r.storedChecksum r.entryRegionStart
      r.richTagOffset).length =
      (r.richTagOffset - r.entryRegionStart + 7) / 8 := by
    simp [rawPairs, strideIndices_length]
  refine ⟨hplen, ?_, hbnd⟩
  have hc := parse_ok_compids _ r hph
  rw [hc]
  have hlen : (dictOfPairs (rawPairs (headerOf file) r.storedChecksum
      r.entryRegionStart r.richTagOffset)).length ≤
      (rawPairs (headerOf file) r.storedChecksum r.entryRegionStart
        r.richTagOffset).length := by
    simpa [dictOfPairs] using dictFoldl_length (rawPairs (headerOf file)
      r.storedChecksum r.entryRegionStart r.richTagOffset) []
  omega

/-- Witness for C2 (amended), at the concrete file `F2` whose entry region
spans 9 bytes. -/
theorem stride_ceil_witness :
    (rawPairs (headerOf F2) F2Result.storedChecksum F2Result.entryRegionStart
        F2Result.richTagOffset).length =
      (F2Result.richTagOffset - F2Result.entryRegionStart + 7) / 8 ∧
    F2Result.compids.length ≤
      (F2Result.richTagOffset - F2Result.entryRegionStart + 7) / 8 ∧
    (∀ i ∈ strideIndices F2Result.entryRegionStart F2Result.richTagOffset,
      i + 8 ≤ (headerOf F2).length) :=
  stride_ceil F2 F2Result (by decide)

theorem unpackLE4_isSome : ∀ (bs : List Nat), bs.length = 4 →
    ∃ v, unpackLE4 bs = some v
  | [_, _, _, _], _ => ⟨_, rfl⟩
  | [], h => by simp at h
  | [_], h => by simp at h
  | [_, _], h => by simp at h
  | [_, _, _], h => by simp at h
  | _ :: _ :: _ :: _ :: _ :: _, h => by simp at h

/-- C3 counterexample: the 62-byte all-zero buffer is shorter than `0x40`,
yet parsing fails with a raw struct unpack error, not with NotPeFormat. -/
theorem short_buffer_counterexample :
    parseFile (List.replicate 62 0) = Except.error RichErr.structError ∧
    RichErr.structError ≠ RichErr.notPE :=
  ⟨by decide, by decide⟩

/-- C3 amended: a buffer shorter than `0x40` bytes fails with NotPeFormat
only when it provides zero bytes at offset `0x3c` (length at most `0x3c`);
with 1 to 3 bytes available there the parse instead fails with a raw struct
unpack error.  A `peOffset` exceeding the source length does not make the
slicer fail at all: the header region is silently truncated. -/
theorem short_buffer_amended :
    (∀ file : List Nat, file.length < 0x40 →
      parseFile file = Except.error
        (if file.length ≤ 0x3c then RichErr.notPE else RichErr.structError)) ∧
    (∀ file : List Nat, 0x40 ≤ file.length →
      ∀ e, getFileHeader file ≠ Except.error e) := by
  constructor
  · intro file hlen
    by_cases hle : file.length ≤ 0x3c
    · have h0 : pySlice file 0x3c (0x3c + 4) = [] := by
        apply List.eq_nil_of_length_eq_zero
        rw [pySlice_length]
        omega
      simp [parseFile, getFileHeader, h0, hle]
    · have hne : (pySlice file 0x3c (0x3c + 4)).length ≠ 4 := by
        rw [pySlice_length]
        omega
      have hnil : ¬(pySlice file 0x3c (0x3c + 4) = []) := by
        intro hc
        have hl := pySlice_length file 0x3c (0x3c + 4)
        rw [hc] at hl
        simp at hl
        omega
      simp [parseFile, getFileHeader, hnil, unpackLE4_eq_none _ hne, hle]
  · intro file hlen e
    have h4 : (pySlice file 0x3c (0x3c + 4)).length = 4 := by
      rw [pySlice_length]
      omega
    obtain ⟨v, hv⟩ := unpackLE4_isSome _ h4
    have hnil : ¬(pySlice file 0x3c (0x3c + 4) = []) := by
      intro hc
      rw [hc] at h4
      simp at h4
    simp [getFileHeader, hnil, hv]

/-- Witness for C3 (amended): a 61-byte buffer (one byte at `0x3c`) fails
with the struct unpack error, and a 64-byte buffer never fails the slicer. -/
theorem short_buffer_amended_witness :
    parseFile (List.replicate 61 0) = Except.error RichErr.structError ∧
    (∀ e, getFileHeader (List.replicate 64 0) ≠ Except.error e) := by
  constructor
  · have h := short_buffer_amended.1 (List.replicate 61 0) (by simp)
    simpa using h
  · exact fun e => short_buffer_amended.2 (List.replicate 64 0) (by simp) e

/-- C10: the two little-endian reads are not length-guarded, so some inputs
make the parse fail with a raw unpack error that is neither NotPeFormat nor
RichHeaderNotFound: a source providing only 3 bytes at offset `0x3c`, and a
header region in which the Rich tag is found with only 2 bytes after it. -/
theorem unguarded_reads :
    parseFile (List.replicate 63 0) = Except.error RichErr.structError ∧
    parseHeader (List.replicate 10 0 ++ richText ++ [1, 2]) =
      Except.error RichErr.structError ∧
    RichErr.structError ≠ RichErr.notPE ∧
    RichErr.structError ≠ RichErr.notFound :=
  ⟨by decide, by decide, by decide, by decide⟩

/-- C8: the computed checksum is insensitive to the processing order within
each of its two loops: running the byte loop over any permutation of the
(offset, byte) pairs, and the compid loop over any permutation of the entry
table, yields the same final 32-bit sum. -/
theorem checksum_order_insensitive (header : List Nat)
    (compids compids' ibs : List (Nat × Nat)) (bs : Nat)
    (hb : (headerEnum header bs).Perm ibs) (hc : compids.Perm compids') :
    computeChecksum header compids bs =
      checksumCompidLoop compids' (byteLoopOn bs ibs) := by
  unfold computeChecksum
  rw [checksumByteLoop_eq_byteLoopOn, byteLoopOn_perm bs _ _ hb,
    checksumCompidLoop_perm _ _ _ hc]

/-- Witness for C8: reversing the byte loop and swapping the two entries of
the compid loop leaves the checksum of a small header unchanged. -/
theorem checksum_order_insensitive_witness :
    computeChecksum [1, 2, 3] [(1, 2), (3, 4)] 3 =
      checksumCompidLoop [(3, 4), (1, 2)]
        (byteLoopOn 3 (headerEnum [1, 2, 3] 3).reverse) :=
  checksum_order_insensitive [1, 2, 3] [(1, 2), (3, 4)] [(3, 4), (1, 2)]
    (headerEnum [1, 2, 3] 3).reverse 3 (List.reverse_perm _).symm
    (List.Perm.swap (3, 4) (1, 2) [])

/-! ## The round-trip construction -/

theorem encPairs_cons (C : Nat) (p : Nat × Nat) (ps : List (Nat × Nat)) :
    encPairs C (p :: ps) =
      packLE4 (p.1 ^^^ C) ++ (packLE4 (p.2 ^^^ C) ++ encPairs C ps) := by
  simp [encPairs]

theorem encPairs_length (C : Nat) (ps : List (Nat × Nat)) :
    (encPairs C ps).length = 8 * ps.length := by
  induction ps with
  | nil => rfl
  | cons p ps ih =>
    rw [encPairs_cons]
    simp only [List.length_append, List.length_cons, ih]
    simp [packLE4]
    omega

theorem take4_packLE4 (v : Nat) : (packLE4 v).take 4 = packLE4 v := rfl

theorem xor_lt_u32 (a b : Nat) (ha : a < 4294967296) (hb : b < 4294967296) :
    a ^^^ b < 4294967296 := by
  have h32 : (4294967296 : Nat) = 2 ^ 32 := by norm_num
  rw [h32] at ha hb ⊢
  exact Nat.xor_lt_two_pow ha hb

theorem decodeLoop_encPairs (C : Nat) (hC : C < 4294967296)
    (ps : List (Nat × Nat)) :
    ∀ (start : Nat) (d : List (Nat × Nat)) (B T : List Nat),
      (∀ p ∈ ps, p.1 < 4294967296 ∧ p.2 < 4294967296) →
      B.drop start = encPairs C ps ++ T →
      decodeLoop B C (strideIndices start (start + 8 * ps.length)) d =
        Except.ok (ps.foldl (fun d p => dictInsert d p.1 p.2) d) := by
  induction ps with
  | nil =>
    intro start d B T _ _
    rw [List.length_nil, Nat.mul_zero, Nat.add_zero,
      strideIndices_nil start start (Nat.le_refl start)]
    rfl
  | cons p ps ih =>
    intro start d B T hp hB
    have hx1 : p.1 ^^^ C < 4294967296 :=
      xor_lt_u32 _ _ (hp p (List.mem_cons_self _ _)).1 hC
    have hx2 : p.2 ^^^ C < 4294967296 :=
      xor_lt_u32 _ _ (hp p (List.mem_cons_self _ _)).2 hC
    have hdrop : B.drop start =
        packLE4 (p.1 ^^^ C) ++ (packLE4 (p.2 ^^^ C) ++ (encPairs C ps ++ T)) := by
      rw [hB, encPairs_cons]
      simp [List.append_assoc]
    have hdrop4 : B.drop (start + 4) =
        packLE4 (p.2 ^^^ C) ++ (encPairs C ps ++ T) := by
      rw [← List.drop_drop, hdrop, List.drop_left' (packLE4_length _)]
    have hdrop8 : B.drop (start + 8) = encPairs C ps ++ T := by
      rw [show start + 8 = start + 4 + 4 by omega, ← List.drop_drop, hdrop4,
        List.drop_left' (packLE4_length _)]
    have hs1 : pySlice B start (start + 4) = packLE4 (p.1 ^^^ C) := by
      rw [pySlice_eq_drop_take, show start + 4 - start = 4 by omega, hdrop,
        List.take_left' (packLE4_length _)]
    have hs2 : pySlice B (start + 4) (start + 8) = packLE4 (p.2 ^^^ C) := by
      rw [pySlice_eq_drop_take, show start + 8 - (start + 4) = 4 by omega,
        hdrop4, List.take_left' (packLE4_length _)]
    rw [List.length_cons, show start + 8 * (ps.length + 1) =
      start + 8 + 8 * ps.length by omega]
    rw [show start + 8 + 8 * ps.length = start + 8 * (ps.length + 1) by omega,
      strideIndices_cons,
      show start + 8 * (ps.length + 1) = start + 8 + 8 * ps.length by omega]
    simp only [decodeLoop, hs1, hs2, unpack_pack _ hx1, unpack_pack _ hx2,
      Nat.xor_cancel_right, List.foldl_cons]
    exact ih (start + 8) (dictInsert d p.1 p.2) B T
      (fun q hq => hp q (List.mem_cons_of_mem _ hq)) hdrop8

/-- C5 counterexample: with checksum 0 and the single pair
`(0x68636952, 0)`, the XOR-encoded identifier bytes spell Rich themselves;
the parse sees that occurrence at offset 16 as the tag and returns an empty
entry table instead of recovering the original pair. -/
theorem roundtrip_counterexample :
    parseHeader (buildBuffer 0 [(0x68636952, 0)]) =
      Except.ok (⟨[], 0, 0, true, 16, 0, 16⟩ : ParseResult) ∧
    dictOfPairs [(0x68636952, 0)] ≠ [] :=
  ⟨by decide, by decide⟩

/-- C5 amended: the round trip holds for every checksum `C` and pair list
whose first occurrence of the Rich tag in the built buffer is the one the
construction writes after the entries (in particular, no encoded pair and no
marker byte may spell an earlier Rich): parsing then recovers exactly the
original pairs, later duplicates overriding earlier ones, and reports
`storedChecksum = C`. -/
theorem roundtrip_amended (C : Nat) (pairs : List (Nat × Nat))
    (hC : C < 4294967296)
    (hp : ∀ p ∈ pairs, p.1 < 4294967296 ∧ p.2 < 4294967296)
    (hfind : findSub (buildBuffer C pairs) richText =
      some (16 + 8 * pairs.length)) :
    ∃ r, parseHeader (buildBuffer C pairs) = Except.ok r ∧
      r.compids = dictOfPairs pairs ∧ r.storedChecksum = C := by
  have hsplit : buildBuffer C pairs =
      (packLE4 (C ^^^ checksumMask) ++ packLE4 C ++ packLE4 C ++ packLE4 C) ++
        (encPairs C pairs ++ (richText ++ packLE4 C)) := by
    simp [buildBuffer, List.append_assoc]
  have hlen16 : (packLE4 (C ^^^ checksumMask) ++ packLE4 C ++ packLE4 C ++
      packLE4 C).length = 16 := by
    simp [packLE4]
  have hdrop16 : (buildBuffer C pairs).drop 16 =
      encPairs C pairs ++ (richText ++ packLE4 C) := by
    rw [hsplit, List.drop_left' hlen16]
  have hdropRich : (buildBuffer C pairs).drop (16 + 8 * pairs.length) =
      richText ++ packLE4 C := by
    rw [show 16 + 8 * pairs.length = 16 + (encPairs C pairs).length by
        rw [encPairs_length],
      ← List.drop_drop, hdrop16, List.drop_left]
  have hcv : unpackLE4 (pySlice (buildBuffer C pairs)
      (16 + 8 * pairs.length + 4) (16 + 8 * pairs.length + 4 + 4)) =
      some C := by
    rw [pySlice_eq_drop_take,
      show 16 + 8 * pairs.length + 4 + 4 - (16 + 8 * pairs.length + 4) = 4 by
        omega]
    have hd : (buildBuffer C pairs).drop (16 + 8 * pairs.length + 4) =
        packLE4 C := by
      rw [← List.drop_drop, hdropRich,
        List.drop_left' (show richText.length = 4 from rfl)]
    rw [hd, take4_packLE4, unpack_pack _ hC]
  have hmarker : findSub (buildBuffer C pairs)
      [(C ^^^ checksumMask) % 256] = some 0 := by
    unfold buildBuffer packLE4
    simp [findSub, findSubAux, List.isPrefixOf]
  have hdec := decodeLoop_encPairs C hC pairs 16 []
    (buildBuffer C pairs) (richText ++ packLE4 C) hp hdrop16
  refine ⟨⟨pairs.foldl (fun d p => dictInsert d p.1 p.2) [], C,
    computeChecksum (buildBuffer C pairs)
      (pairs.foldl (fun d p => dictInsert d p.1 p.2) []) 0,
    validateChecksum (buildBuffer C pairs)
      (pairs.foldl (fun d p => dictInsert d p.1 p.2) []) 0 C,
    16 + 8 * pairs.length, 0, 16⟩, ?_, rfl, rfl⟩
  simp only [parseHeader, hfind, hcv, hmarker, Nat.zero_add, hdec]

/-- Witness for C5 (amended): a 3-pair round trip with checksum
`0xdeadbeef`, the duplicate key 7 keeping the later count 11. -/
theorem roundtrip_amended_witness :
    ∃ r, parseHeader (buildBuffer 0xdeadbeef [(7, 3), (9, 4), (7, 11)]) =
      Except.ok r ∧ r.compids = dictOfPairs [(7, 3), (9, 4), (7, 11)] ∧
      r.storedChecksum = 0xdeadbeef :=
  roundtrip_amended 0xdeadbeef [(7, 3), (9, 4), (7, 11)] (by decide)
    (by decide) (by decide)

end PyRichHeader
